import Mathlib

/-!
Verification of the ensemble decision core of a real-time fraud-detection
service (`services/ml-models/src/models/ensemble_predictor.py`).

The Python code is shallowly embedded: floats become `ℚ`, Python dicts become
association lists (`List (String × _)`) with dict-style insert/lookup,
exceptions become `Except`, and the async fan-out result (the list of
per-model `PredictionResult`s) is passed to `predict` as an explicit input.
Wall-clock fields (`processing_time_ms`) are omitted; timestamps that the
code compares are passed in explicitly as `ℚ` values.
-/

namespace FraudDetection

/-- Available ensemble strategies (`EnsembleStrategy` enum). -/
inductive EnsembleStrategy where
  | weighted_average
  | voting
  | stacking
deriving DecidableEq

/-- Result from an individual model prediction (`PredictionResult` dataclass).
`processing_time_ms` is wall-clock data irrelevant to the combiners; it is
kept as an opaque rational. -/
structure PredictionResult where
  model_name : String
  prediction : ℚ
  confidence : ℚ
  processing_time_ms : ℚ
deriving DecidableEq

/-- The pair returned by the `_*_ensemble` combiners
(the Python dict with keys fraud_probability and confidence). -/
structure CombineOutput where
  fraud_probability : ℚ
  confidence : ℚ
deriving DecidableEq

/-- Python `d.get(key, 0.0)` on a float-valued dict embedded as an
association list. -/
def dictGet0 (d : List (String × ℚ)) (key : String) : ℚ :=
  match d.find? (fun kv => kv.1 == key) with
  | some kv => kv.2
  | none => 0

/-- `_weighted_average_ensemble`: the loop accumulating
`weighted_sum`, `confidence_sum` and `total_weight` is embedded as list sums;
`if total_weight == 0` returns the degenerate (0.5, 0.0) output. -/
def weighted_average_ensemble (model_weights : List (String × ℚ))
    (predictions : List PredictionResult) : CombineOutput :=
  let total_weight := (predictions.map (fun p => dictGet0 model_weights p.model_name)).sum
  let weighted_sum :=
    (predictions.map (fun p => p.prediction * dictGet0 model_weights p.model_name)).sum
  let confidence_sum :=
    (predictions.map (fun p => p.confidence * dictGet0 model_weights p.model_name)).sum
  if total_weight = 0 then
    { fraud_probability := 0.5, confidence := 0.0 }
  else
    { fraud_probability := weighted_sum / total_weight,
      confidence := confidence_sum / total_weight }

/-- `_voting_ensemble`: the vote-counting loop becomes `countP`;
`x / total if total > 0 else 0.0` is kept as in the source. -/
def voting_ensemble (fraud_threshold : ℚ)
    (predictions : List PredictionResult) : CombineOutput :=
  let fraud_votes : ℚ := (predictions.countP (fun p => fraud_threshold < p.prediction) : ℚ)
  let total_votes : ℚ := (predictions.length : ℚ)
  let confidence_sum := (predictions.map (fun p => p.confidence)).sum
  { fraud_probability := if 0 < predictions.length then fraud_votes / total_votes else 0.0,
    confidence := if 0 < predictions.length then confidence_sum / total_votes else 0.0 }

/-- `_stacking_ensemble`: confidence-weighted average, falling back to
`_weighted_average_ensemble` when the total confidence is zero. -/
def stacking_ensemble (model_weights : List (String × ℚ))
    (predictions : List PredictionResult) : CombineOutput :=
  let total_confidence := (predictions.map (fun p => p.confidence)).sum
  if total_confidence = 0 then
    weighted_average_ensemble model_weights predictions
  else
    { fraud_probability :=
        (predictions.map (fun p => p.prediction * p.confidence)).sum / total_confidence,
      confidence := total_confidence / (predictions.length : ℚ) }

/-- `_make_decision(fraud_probability, confidence)`: the confidence gate is
checked before any probability threshold. `confidence_threshold` is the
`self.confidence_threshold` configuration read in `__init__`. -/
def make_decision (confidence_threshold fraud_probability confidence : ℚ) : String :=
  if confidence < confidence_threshold then
    "REVIEW"
  else if 0.95 ≤ fraud_probability then
    "DECLINE"
  else if 0.8 ≤ fraud_probability then
    "REVIEW"
  else if 0.6 ≤ fraud_probability then
    "APPROVE_WITH_MONITORING"
  else
    "APPROVE"

/-- `_calculate_risk_level(fraud_probability)`. -/
def calculate_risk_level (fraud_probability : ℚ) : String :=
  if 0.95 ≤ fraud_probability then
    "CRITICAL"
  else if 0.8 ≤ fraud_probability then
    "HIGH"
  else if 0.6 ≤ fraud_probability then
    "MEDIUM"
  else if 0.3 ≤ fraud_probability then
    "LOW"
  else
    "VERY_LOW"

/-- The hardcoded `model_confidence_multiplier` table with its 0.5 default. -/
def model_confidence_multiplier (model_name : String) : ℚ :=
  if model_name = "xgboost_primary" then 1.0
  else if model_name = "lstm_sequential" then 0.8
  else if model_name = "bert_text" then 0.7
  else if model_name = "graph_neural" then 0.6
  else if model_name = "isolation_forest" then 0.5
  else 0.5

/-- `_calculate_model_confidence(prediction, model_name)`:
distance from 0.5 scaled by the per-model multiplier, capped at 1. -/
def calculate_model_confidence (prediction : ℚ) (model_name : String) : ℚ :=
  min 1 (|prediction - 0.5| * 2 * model_confidence_multiplier model_name)

/-- `_predict_single_model`, after the raw model output has been converted to
a scalar: clamp to [0,1] with `max(0.0, min(1.0, fraud_prob))`, then derive
confidence from the clamped value. The raw scalar is an input here since the
model call is asynchronous and external. -/
def predict_single_model (model_name : String) (raw : ℚ)
    (processing_time_ms : ℚ) : PredictionResult :=
  let fraud_prob := max 0 (min 1 raw)
  { model_name := model_name,
    prediction := fraud_prob,
    confidence := calculate_model_confidence fraud_prob model_name,
    processing_time_ms := processing_time_ms }

/-- Python dict assignment `d[key] = v` on a dict embedded as an association
list with unique keys: replace in place when the key is present, append
otherwise. -/
def dictInsert {V : Type} (d : List (String × V)) (key : String) (v : V) :
    List (String × V) :=
  if d.any (fun kv => kv.1 == key) then
    d.map (fun kv => if kv.1 == key then (kv.1, v) else kv)
  else
    d ++ [(key, v)]

/-- The keys of an embedded dict, in insertion order. -/
def dictKeys {V : Type} (d : List (String × V)) : List String :=
  d.map (fun kv => kv.1)

/-- `sum(d.values())` for a float-valued dict. -/
def sumValues (d : List (String × ℚ)) : ℚ :=
  (d.map (fun kv => kv.2)).sum

/-- `_get_model_weights`: read the enabled models' configured weights and
normalize them to sum to 1 when the total is positive. The input is the
`name -> config.weight` mapping extracted from `config.get_enabled_models()`. -/
def get_model_weights (enabled_model_weights : List (String × ℚ)) :
    List (String × ℚ) :=
  let total_weight := sumValues enabled_model_weights
  if 0 < total_weight then
    enabled_model_weights.map (fun kv => (kv.1, kv.2 / total_weight))
  else
    enabled_model_weights

/-- `update_model_weights(new_weights)`: normalize the new mapping when its
total is positive and merge it into the stored table with
`self.model_weights.update(...)` — dict update assigns each new pair in
iteration order, leaving absent keys untouched. -/
def update_model_weights (model_weights new_weights : List (String × ℚ)) :
    List (String × ℚ) :=
  let total_weight := sumValues new_weights
  if 0 < total_weight then
    (new_weights.map (fun kv => (kv.1, kv.2 / total_weight))).foldl
      (fun acc kv => dictInsert acc kv.1 kv.2) model_weights
  else
    model_weights

/-- `min(cache.keys(), key=lambda k: cache[k][1])` resolved to the entry it
names: Python `min` scans in insertion order and keeps the first entry whose
timestamp is strictly smaller than the current best. -/
def oldestEntry {V : Type} : List (String × V × ℚ) → Option (String × V × ℚ)
  | [] => none
  | e :: es => some (es.foldl (fun best x => if x.2.2 < best.2.2 then x else best) e)

/-- `_cache_prediction` with the capacity literal abstracted: when
`len(cache) > max_entries`, delete the oldest-inserted entry, then insert
`(result, now)` under `cache_key`. -/
def cache_prediction_capped {V : Type} (max_entries : Nat)
    (cache : List (String × V × ℚ)) (cache_key : String) (result : V)
    (now : ℚ) : List (String × V × ℚ) :=
  let cache2 :=
    if max_entries < cache.length then
      match oldestEntry cache with
      | some oldest => cache.filter (fun kv => !(kv.1 == oldest.1))
      | none => cache
    else cache
  dictInsert cache2 cache_key (result, now)

/-- `_cache_prediction` exactly as in the source, with its hardcoded
`if len(self.prediction_cache) > 1000` capacity check. -/
def cache_prediction {V : Type} (cache : List (String × V × ℚ))
    (cache_key : String) (result : V) (now : ℚ) : List (String × V × ℚ) :=
  cache_prediction_capped 1000 cache cache_key result now

/-- Errors `predict` can raise: the explicit
`ValueError("No model predictions available")` and the dynamic TypeError that
Python raises when `_generate_explanation` compares a non-numeric feature
value against a numeric threshold. -/
inductive PredictError where
  | noPredictions
  | typeError
deriving DecidableEq

/-- Python values as they occur in the dynamically-typed `features` dict:
numbers, strings, and nested dicts (the optional `features` sub-dict). -/
inductive PyVal where
  | num (q : ℚ)
  | str (s : String)
  | dict (entries : List (String × PyVal))

/-- The dynamically-typed `features` argument of `predict`. -/
abbrev Features := List (String × PyVal)

/-- Python `features.get(key, default)`. -/
def pyGet (features : Features) (key : String) (dflt : PyVal) : PyVal :=
  match features.find? (fun kv => kv.1 == key) with
  | some kv => kv.2
  | none => dflt

/-- Python `v > bound` against a numeric literal: a TypeError unless `v` is a
number. -/
def pyGtNum (v : PyVal) (bound : ℚ) : Except PredictError Bool :=
  match v with
  | PyVal.num q => Except.ok (decide (bound < q))
  | _ => Except.error PredictError.typeError

/-- Python `v < bound` against a numeric literal: a TypeError unless `v` is a
number. -/
def pyLtNum (v : PyVal) (bound : ℚ) : Except PredictError Bool :=
  match v with
  | PyVal.num q => Except.ok (decide (q < bound))
  | _ => Except.error PredictError.typeError

/-- One entry of the `model_contributions` dict built by
`_generate_explanation`. -/
structure ModelContribution where
  prediction : ℚ
  weight : ℚ
  contribution : ℚ
  confidence : ℚ
deriving DecidableEq

/-- The explanation dict: `model_contributions`, `key_factors`,
`feature_importance`. The human-readable factor strings keep their fixed
prefixes; the interpolated number formatting is omitted as presentation-only. -/
structure Explanation where
  model_contributions : List (String × ModelContribution)
  key_factors : List String
  feature_importance : List (String × ℚ)
deriving DecidableEq

/-- The `explanation = {}` default used when explanation is disabled. -/
def emptyExplanation : Explanation :=
  { model_contributions := [], key_factors := [], feature_importance := [] }

/-- The feature-importance block of `_generate_explanation`: numeric entries
of the nested `features` dict with `min(abs(v), 1) > 0.1`, sorted by
importance descending (Python `sorted` is stable), top 10. -/
def feature_importance_of (entries : List (String × PyVal)) :
    List (String × ℚ) :=
  let important := entries.filterMap (fun kv =>
    match kv.2 with
    | PyVal.num q => if 0.1 < min |q| 1 then some (kv.1, min |q| 1) else none
    | _ => none)
  (important.mergeSort (fun a b => decide (b.2 ≤ a.2))).take 10

/-- `_generate_explanation(predictions, features)`: per-model contributions,
threshold-based key factors, and feature importance. The amount and
hour-of-day factor rules compare dynamically-typed feature values against
numeric thresholds exactly as the source does, so a string-valued `amount`
or `hour_of_day` raises a TypeError out of this function — the source wraps
none of this in a try/except. -/
def generate_explanation (model_weights : List (String × ℚ))
    (predictions : List PredictionResult) (features : Features) :
    Except PredictError Explanation := do
  let total_weight := (predictions.map (fun p => dictGet0 model_weights p.model_name)).sum
  let model_contributions := predictions.map (fun p =>
    let weight := dictGet0 model_weights p.model_name
    let contribution := if 0 < total_weight then p.prediction * weight / total_weight else 0
    (p.model_name, ModelContribution.mk p.prediction weight contribution p.confidence))
  let amount := pyGet features "amount" (PyVal.num 0)
  let amount_factors ← do
    if ← pyGtNum amount 10000 then
      pure ["High transaction amount"]
    else if ← pyLtNum amount 1 then
      pure ["Unusual low amount"]
    else
      pure []
  let hour_of_day := pyGet features "hour_of_day" (PyVal.num 12)
  let hour_factors ← do
    if ← pyLtNum hour_of_day 6 then
      pure ["Off-hours transaction"]
    else if ← pyGtNum hour_of_day 22 then
      pure ["Off-hours transaction"]
    else
      pure []
  let payment_method := pyGet features "payment_method" (PyVal.str "")
  let payment_factors :=
    match payment_method with
    | PyVal.str s =>
        if s == "crypto" || s == "gift_card" then ["High-risk payment method"] else []
    | _ => []
  let fi :=
    match pyGet features "features" (PyVal.str "") with
    | PyVal.dict entries => feature_importance_of entries
    | _ => []
  pure (Explanation.mk model_contributions
    (amount_factors ++ hour_factors ++ payment_factors) fi)

/-- The ensemble configuration read in `__init__`. -/
structure EnsembleConfig where
  strategy : EnsembleStrategy
  fraud_threshold : ℚ
  confidence_threshold : ℚ
  enable_explanation : Bool
  model_weights : List (String × ℚ)

/-- `_combine_predictions`: dispatch on the configured strategy. -/
def combine_predictions (cfg : EnsembleConfig)
    (model_predictions : List PredictionResult) : CombineOutput :=
  match cfg.strategy with
  | EnsembleStrategy.weighted_average =>
      weighted_average_ensemble cfg.model_weights model_predictions
  | EnsembleStrategy.voting =>
      voting_ensemble cfg.fraud_threshold model_predictions
  | EnsembleStrategy.stacking =>
      stacking_ensemble cfg.model_weights model_predictions

/-- The result dict `predict` returns on success (`processing_time_ms`,
wall-clock data, omitted). -/
structure EnsembleResultOut where
  fraud_probability : ℚ
  fraud_score : ℚ
  confidence : ℚ
  risk_level : String
  decision : String
  model_predictions : List (String × ℚ)
  model_confidences : List (String × ℚ)
  explanation : Explanation
  ensemble_strategy : EnsembleStrategy
deriving DecidableEq

/-- The cache-miss path of `predict`, taking the gathered per-model results
(the output of the asynchronous `_get_model_predictions` fan-out) as input:
raise when no model produced a prediction, combine, optionally explain
(unguarded — an explanation error propagates), decide, and build the result
dict. -/
def predict (cfg : EnsembleConfig) (features : Features)
    (model_predictions : List PredictionResult) :
    Except PredictError EnsembleResultOut := do
  if model_predictions.isEmpty then
    throw PredictError.noPredictions
  else
    let ensemble := combine_predictions cfg model_predictions
    let explanation ←
      if cfg.enable_explanation then
        generate_explanation cfg.model_weights model_predictions features
      else
        pure emptyExplanation
    let decision :=
      make_decision cfg.confidence_threshold ensemble.fraud_probability ensemble.confidence
    pure
      { fraud_probability := ensemble.fraud_probability,
        fraud_score := ensemble.fraud_probability,
        confidence := ensemble.confidence,
        risk_level := calculate_risk_level ensemble.fraud_probability,
        decision := decision,
        model_predictions := model_predictions.map (fun p => (p.model_name, p.prediction)),
        model_confidences := model_predictions.map (fun p => (p.model_name, p.confidence)),
        explanation := explanation,
        ensemble_strategy := cfg.strategy }

/-- The success-path result record of `predict`, as a function of the
combiner output and the attached explanation; `predict` returns exactly this
record when it does not raise. -/
def predict_success_result (cfg : EnsembleConfig)
    (model_predictions : List PredictionResult) (explanation : Explanation) :
    EnsembleResultOut :=
  let ensemble := combine_predictions cfg model_predictions
  { fraud_probability := ensemble.fraud_probability,
    fraud_score := ensemble.fraud_probability,
    confidence := ensemble.confidence,
    risk_level := calculate_risk_level ensemble.fraud_probability,
    decision :=
      make_decision cfg.confidence_threshold ensemble.fraud_probability ensemble.confidence,
    model_predictions := model_predictions.map fun p => (p.model_name, p.prediction),
    model_confidences := model_predictions.map fun p => (p.model_name, p.confidence),
    explanation := explanation,
    ensemble_strategy := cfg.strategy }

/-- Looked-up weights are non-negative when every table entry is. -/
theorem dictGet0_nonneg (d : List (String × ℚ)) (h : ∀ kv ∈ d, 0 ≤ kv.2)
    (key : String) : 0 ≤ dictGet0 d key := by
  unfold dictGet0
  cases hf : d.find? (fun kv => kv.1 == key) with
  | none => exact le_refl 0
  | some kv => exact h kv (List.mem_of_find?_eq_some hf)

/-- A quotient of sums `Σ f·g / Σ g` is in [0,1] when `0 ≤ f·g ≤ g`
pointwise and the denominator is non-zero. -/
theorem sum_ratio_bounds (l : List PredictionResult) (f g : PredictionResult → ℚ)
    (hg : ∀ p ∈ l, 0 ≤ g p) (h0 : ∀ p ∈ l, 0 ≤ f p * g p)
    (h1 : ∀ p ∈ l, f p * g p ≤ g p) (hne : (l.map g).sum ≠ 0) :
    0 ≤ (l.map fun p => f p * g p).sum / (l.map g).sum ∧
      (l.map fun p => f p * g p).sum / (l.map g).sum ≤ 1 := by
  have hgs : 0 ≤ (l.map g).sum := by
    apply List.sum_nonneg
    intro x hx
    obtain ⟨p, hp, rfl⟩ := List.mem_map.mp hx
    exact hg p hp
  have hpos : 0 < (l.map g).sum := lt_of_le_of_ne hgs (Ne.symm hne)
  constructor
  · apply div_nonneg _ hgs
    apply List.sum_nonneg
    intro x hx
    obtain ⟨p, hp, rfl⟩ := List.mem_map.mp hx
    exact h0 p hp
  · rw [div_le_one hpos]
    exact List.sum_le_sum h1

/-- Summing the constant 1 over a list gives its length. -/
theorem sum_map_one (l : List PredictionResult) :
    (l.map fun _ => (1 : ℚ)).sum = l.length := by
  induction l with
  | nil => simp
  | cons p t ih => simp [ih]; ring

/-- Bounds for the weighted-average strategy. -/
theorem weighted_average_ensemble_bounded (w : List (String × ℚ))
    (preds : List PredictionResult)
    (hp : ∀ p ∈ preds,
      0 ≤ p.prediction ∧ p.prediction ≤ 1 ∧ 0 ≤ p.confidence ∧ p.confidence ≤ 1)
    (hw : ∀ kv ∈ w, 0 ≤ kv.2) :
    0 ≤ (weighted_average_ensemble w preds).fraud_probability ∧
      (weighted_average_ensemble w preds).fraud_probability ≤ 1 ∧
      0 ≤ (weighted_average_ensemble w preds).confidence ∧
      (weighted_average_ensemble w preds).confidence ≤ 1 := by
  have hwn : ∀ p ∈ preds, 0 ≤ dictGet0 w p.model_name :=
    fun p _ => dictGet0_nonneg w hw p.model_name
  simp only [weighted_average_ensemble]
  by_cases h0 : (preds.map fun p => dictGet0 w p.model_name).sum = 0
  · simp only [if_pos h0]
    norm_num
  · simp only [if_neg h0]
    have hfp := sum_ratio_bounds preds (fun p => p.prediction)
      (fun p => dictGet0 w p.model_name) hwn
      (fun p hpm => mul_nonneg (hp p hpm).1 (hwn p hpm))
      (fun p hpm => by
        have := mul_le_mul_of_nonneg_right (hp p hpm).2.1 (hwn p hpm)
        simpa using this)
      h0
    have hcf := sum_ratio_bounds preds (fun p => p.confidence)
      (fun p => dictGet0 w p.model_name) hwn
      (fun p hpm => mul_nonneg (hp p hpm).2.2.1 (hwn p hpm))
      (fun p hpm => by
        have := mul_le_mul_of_nonneg_right (hp p hpm).2.2.2 (hwn p hpm)
        simpa using this)
      h0
    exact ⟨hfp.1, hfp.2, hcf.1, hcf.2⟩

/-- Bounds for the voting strategy. -/
theorem voting_ensemble_bounded (ft : ℚ) (preds : List PredictionResult)
    (hp : ∀ p ∈ preds,
      0 ≤ p.prediction ∧ p.prediction ≤ 1 ∧ 0 ≤ p.confidence ∧ p.confidence ≤ 1) :
    0 ≤ (voting_ensemble ft preds).fraud_probability ∧
      (voting_ensemble ft preds).fraud_probability ≤ 1 ∧
      0 ≤ (voting_ensemble ft preds).confidence ∧
      (voting_ensemble ft preds).confidence ≤ 1 := by
  simp only [voting_ensemble]
  by_cases h : 0 < preds.length
  · have hlpos : (0 : ℚ) < preds.length := by exact_mod_cast h
    simp only [if_pos h]
    refine ⟨div_nonneg (by positivity) hlpos.le, ?_, ?_, ?_⟩
    · rw [div_le_one hlpos]
      exact_mod_cast preds.countP_le_length fun p => decide (ft < p.prediction)
    · apply div_nonneg _ hlpos.le
      apply List.sum_nonneg
      intro x hx
      obtain ⟨p, hpm, rfl⟩ := List.mem_map.mp hx
      exact (hp p hpm).2.2.1
    · rw [div_le_one hlpos]
      calc (preds.map fun p => p.confidence).sum
          ≤ (preds.map fun _ => (1 : ℚ)).sum :=
            List.sum_le_sum fun p hpm => (hp p hpm).2.2.2
        _ = preds.length := sum_map_one preds
  · simp only [if_neg h]
    norm_num

/-- Bounds for the stacking strategy. -/
theorem stacking_ensemble_bounded (w : List (String × ℚ))
    (preds : List PredictionResult)
    (hp : ∀ p ∈ preds,
      0 ≤ p.prediction ∧ p.prediction ≤ 1 ∧ 0 ≤ p.confidence ∧ p.confidence ≤ 1)
    (hw : ∀ kv ∈ w, 0 ≤ kv.2) :
    0 ≤ (stacking_ensemble w preds).fraud_probability ∧
      (stacking_ensemble w preds).fraud_probability ≤ 1 ∧
      0 ≤ (stacking_ensemble w preds).confidence ∧
      (stacking_ensemble w preds).confidence ≤ 1 := by
  simp only [stacking_ensemble]
  by_cases h0 : (preds.map fun p => p.confidence).sum = 0
  · simp only [if_pos h0]
    exact weighted_average_ensemble_bounded w preds hp hw
  · simp only [if_neg h0]
    have hcn : ∀ p ∈ preds, 0 ≤ p.confidence := fun p hpm => (hp p hpm).2.2.1
    have hfp := sum_ratio_bounds preds (fun p => p.prediction)
      (fun p => p.confidence) hcn
      (fun p hpm => mul_nonneg (hp p hpm).1 (hcn p hpm))
      (fun p hpm => by
        have := mul_le_mul_of_nonneg_right (hp p hpm).2.1 (hcn p hpm)
        simpa using this)
      h0
    have hnil : preds ≠ [] := by
      intro hn
      apply h0
      subst hn
      simp
    have hlen : 0 < preds.length := List.length_pos.mpr hnil
    have hlpos : (0 : ℚ) < preds.length := by exact_mod_cast hlen
    have hcs : 0 ≤ (preds.map fun p => p.confidence).sum := by
      apply List.sum_nonneg
      intro x hx
      obtain ⟨p, hpm, rfl⟩ := List.mem_map.mp hx
      exact hcn p hpm
    refine ⟨hfp.1, hfp.2, div_nonneg hcs hlpos.le, ?_⟩
    rw [div_le_one hlpos]
    calc (preds.map fun p => p.confidence).sum
        ≤ (preds.map fun _ => (1 : ℚ)).sum :=
          List.sum_le_sum fun p hpm => (hp p hpm).2.2.2
      _ = preds.length := sum_map_one preds

/-- The weighted-average combiner is invariant under permutations of the
input list. -/
theorem weighted_average_ensemble_perm (w : List (String × ℚ))
    {l l2 : List PredictionResult} (h : l.Perm l2) :
    weighted_average_ensemble w l = weighted_average_ensemble w l2 := by
  have hsum : ∀ f : PredictionResult → ℚ, (l.map f).sum = (l2.map f).sum :=
    fun f => (h.map f).sum_eq
  simp only [weighted_average_ensemble, hsum]

/-- The voting combiner is invariant under permutations of the input list. -/
theorem voting_ensemble_perm (ft : ℚ) {l l2 : List PredictionResult}
    (h : l.Perm l2) : voting_ensemble ft l = voting_ensemble ft l2 := by
  have hsum : ∀ f : PredictionResult → ℚ, (l.map f).sum = (l2.map f).sum :=
    fun f => (h.map f).sum_eq
  simp only [voting_ensemble, hsum, h.countP_eq, h.length_eq]

/-- The stacking combiner is invariant under permutations of the input
list. -/
theorem stacking_ensemble_perm (w : List (String × ℚ))
    {l l2 : List PredictionResult} (h : l.Perm l2) :
    stacking_ensemble w l = stacking_ensemble w l2 := by
  have hsum : ∀ f : PredictionResult → ℚ, (l.map f).sum = (l2.map f).sum :=
    fun f => (h.map f).sum_eq
  simp only [stacking_ensemble, hsum, h.length_eq,
    weighted_average_ensemble_perm w h]

/-- C1: the decision function checks the confidence gate first — if
`confidence < confidence_threshold` the decision is REVIEW regardless of the
fraud probability — and otherwise applies the 0.95 / 0.80 / 0.60 probability
bands; at confidence 0.3, threshold 0.7, fraud probability 0.99 the decision
is REVIEW. -/
theorem make_decision_precedence (fp conf th : ℚ) :
    (conf < th → make_decision th fp conf = "REVIEW") ∧
    (th ≤ conf →
      (0.95 ≤ fp → make_decision th fp conf = "DECLINE") ∧
      (0.8 ≤ fp → fp < 0.95 → make_decision th fp conf = "REVIEW") ∧
      (0.6 ≤ fp → fp < 0.8 → make_decision th fp conf = "APPROVE_WITH_MONITORING") ∧
      (fp < 0.6 → make_decision th fp conf = "APPROVE")) ∧
    make_decision 0.7 0.99 0.3 = "REVIEW" := by
  refine ⟨fun h => ?_, fun h => ⟨fun h1 => ?_, fun h1 h2 => ?_, fun h1 h2 => ?_, fun h1 => ?_⟩, ?_⟩
  · simp only [make_decision, if_pos h]
  · simp only [make_decision, if_neg (not_lt.mpr h), if_pos h1]
  · simp only [make_decision, if_neg (not_lt.mpr h), if_neg (not_le.mpr h2), if_pos h1]
  · have h3 : ¬ (0.95 : ℚ) ≤ fp := not_le.mpr (lt_of_lt_of_le h2 (by norm_num))
    simp only [make_decision, if_neg (not_lt.mpr h), if_neg h3, if_neg (not_le.mpr h2),
      if_pos h1]
  · have h2 : ¬ (0.95 : ℚ) ≤ fp := not_le.mpr (lt_of_lt_of_le h1 (by norm_num))
    have h3 : ¬ (0.8 : ℚ) ≤ fp := not_le.mpr (lt_of_lt_of_le h1 (by norm_num))
    simp only [make_decision, if_neg (not_lt.mpr h), if_neg h2, if_neg h3,
      if_neg (not_le.mpr h1)]
  · norm_num [make_decision]

/-- Witness for C1: the theorem applied at the spec's concrete scenario. -/
theorem make_decision_precedence_witness :
    (0.3 : ℚ) < 0.7 ∧ make_decision 0.7 0.99 0.3 = "REVIEW" :=
  ⟨by norm_num, (make_decision_precedence 0.99 0.3 0.7).1 (by norm_num)⟩

/-- C2: when the gathered list of per-model predictions is empty, `predict`
raises the explicit no-predictions error (`ValueError` in the source); the
call does not return a result, so in particular it never returns an APPROVE
decision. -/
theorem predict_empty_raises (cfg : EnsembleConfig) (features : Features) :
    predict cfg features [] = Except.error PredictError.noPredictions ∧
    (predict cfg features []).isOk = false :=
  ⟨rfl, rfl⟩

/-- C10: the per-model prediction is clamped to [0,1] with
`max(0.0, min(1.0, raw))` before the confidence is derived from it, so the
stored prediction is always in [0,1] whatever scalar the model returned. -/
theorem predict_single_model_clamped (model_name : String) (raw t : ℚ) :
    0 ≤ (predict_single_model model_name raw t).prediction ∧
    (predict_single_model model_name raw t).prediction ≤ 1 ∧
    (predict_single_model model_name raw t).prediction = max 0 (min 1 raw) ∧
    (predict_single_model model_name raw t).confidence =
      calculate_model_confidence (max 0 (min 1 raw)) model_name := by
  refine ⟨le_max_left 0 _, ?_, rfl, rfl⟩
  exact max_le (by norm_num) (min_le_left 1 raw)

/-- C5: for every strategy, every input list whose predictions and
confidences are in [0,1], and every non-negative weight table, the combiner
output's fraud probability and confidence are in [0,1]. -/
theorem combine_predictions_bounded (cfg : EnsembleConfig)
    (preds : List PredictionResult)
    (hp : ∀ p ∈ preds,
      0 ≤ p.prediction ∧ p.prediction ≤ 1 ∧ 0 ≤ p.confidence ∧ p.confidence ≤ 1)
    (hw : ∀ kv ∈ cfg.model_weights, 0 ≤ kv.2) :
    0 ≤ (combine_predictions cfg preds).fraud_probability ∧
      (combine_predictions cfg preds).fraud_probability ≤ 1 ∧
      0 ≤ (combine_predictions cfg preds).confidence ∧
      (combine_predictions cfg preds).confidence ≤ 1 := by
  rcases cfg with ⟨strat, ft, ct, ee, w⟩
  cases strat with
  | weighted_average => exact weighted_average_ensemble_bounded w preds hp hw
  | voting => exact voting_ensemble_bounded ft preds hp
  | stacking => exact stacking_ensemble_bounded w preds hp hw

/-- Witness for C5: the bounds evaluated on a concrete configuration and
prediction list. -/
theorem combine_predictions_bounded_witness :
    0 ≤ (combine_predictions
        ⟨EnsembleStrategy.weighted_average, 0.5, 0.5, false, [("A", 1)]⟩
        [⟨"A", 0.9, 0.8, 1⟩]).fraud_probability ∧
      (combine_predictions
        ⟨EnsembleStrategy.weighted_average, 0.5, 0.5, false, [("A", 1)]⟩
        [⟨"A", 0.9, 0.8, 1⟩]).fraud_probability ≤ 1 ∧
      0 ≤ (combine_predictions
        ⟨EnsembleStrategy.weighted_average, 0.5, 0.5, false, [("A", 1)]⟩
        [⟨"A", 0.9, 0.8, 1⟩]).confidence ∧
      (combine_predictions
        ⟨EnsembleStrategy.weighted_average, 0.5, 0.5, false, [("A", 1)]⟩
        [⟨"A", 0.9, 0.8, 1⟩]).confidence ≤ 1 :=
  combine_predictions_bounded
    ⟨EnsembleStrategy.weighted_average, 0.5, 0.5, false, [("A", 1)]⟩
    [⟨"A", 0.9, 0.8, 1⟩]
    (by
      intro p hp
      simp only [List.mem_singleton] at hp
      subst hp
      norm_num)
    (by
      intro kv hkv
      simp only [List.mem_singleton] at hkv
      subst hkv
      norm_num)

/-- C6: for every strategy, the combiner output is invariant under any
permutation of the input sequence. -/
theorem combine_predictions_perm_invariant (cfg : EnsembleConfig)
    {l l2 : List PredictionResult} (h : l.Perm l2) :
    combine_predictions cfg l = combine_predictions cfg l2 := by
  rcases cfg with ⟨strat, ft, ct, ee, w⟩
  cases strat with
  | weighted_average => exact weighted_average_ensemble_perm w h
  | voting => exact voting_ensemble_perm ft h
  | stacking => exact stacking_ensemble_perm w h

/-- Witness for C6: swapping a concrete two-element input list leaves the
combiner output unchanged. -/
theorem combine_predictions_perm_invariant_witness :
    combine_predictions
        ⟨EnsembleStrategy.stacking, 0.5, 0.5, false, [("A", 1), ("B", 2)]⟩
        [⟨"A", 0.9, 0.8, 1⟩, ⟨"B", 0.2, 0.4, 1⟩] =
      combine_predictions
        ⟨EnsembleStrategy.stacking, 0.5, 0.5, false, [("A", 1), ("B", 2)]⟩
        [⟨"B", 0.2, 0.4, 1⟩, ⟨"A", 0.9, 0.8, 1⟩] :=
  combine_predictions_perm_invariant
    ⟨EnsembleStrategy.stacking, 0.5, 0.5, false, [("A", 1), ("B", 2)]⟩
    (List.Perm.swap (⟨"B", 0.2, 0.4, 1⟩ : PredictionResult)
      (⟨"A", 0.9, 0.8, 1⟩ : PredictionResult) [])

/-- C7: with a non-negative weight table whose total over the participating
models is positive, the weighted-average fraud probability lies between the
minimum and the maximum of the input predictions. -/
theorem weighted_average_within_range (w : List (String × ℚ))
    (preds : List PredictionResult) (m M : ℚ)
    (hw : ∀ kv ∈ w, 0 ≤ kv.2)
    (hm : (preds.map fun p => p.prediction).minimum = (m : WithTop ℚ))
    (hM : (preds.map fun p => p.prediction).maximum = (M : WithBot ℚ))
    (hpos : 0 < (preds.map fun p => dictGet0 w p.model_name).sum) :
    m ≤ (weighted_average_ensemble w preds).fraud_probability ∧
      (weighted_average_ensemble w preds).fraud_probability ≤ M := by
  have hne : (preds.map fun p => dictGet0 w p.model_name).sum ≠ 0 :=
    ne_of_gt hpos
  simp only [weighted_average_ensemble, if_neg hne]
  constructor
  · rw [le_div_iff₀ hpos]
    calc m * (preds.map fun p => dictGet0 w p.model_name).sum
        = (preds.map fun p => m * dictGet0 w p.model_name).sum := by
          rw [List.sum_map_mul_left]
      _ ≤ (preds.map fun p => p.prediction * dictGet0 w p.model_name).sum := by
          apply List.sum_le_sum
          intro p hpm
          apply mul_le_mul_of_nonneg_right _ (dictGet0_nonneg w hw p.model_name)
          exact List.minimum_le_of_mem
            (List.mem_map_of_mem (fun p => p.prediction) hpm) hm
  · rw [div_le_iff₀ hpos]
    calc (preds.map fun p => p.prediction * dictGet0 w p.model_name).sum
        ≤ (preds.map fun p => M * dictGet0 w p.model_name).sum := by
          apply List.sum_le_sum
          intro p hpm
          apply mul_le_mul_of_nonneg_right _ (dictGet0_nonneg w hw p.model_name)
          exact List.le_maximum_of_mem
            (List.mem_map_of_mem (fun p => p.prediction) hpm) hM
      _ = M * (preds.map fun p => dictGet0 w p.model_name).sum := by
          rw [List.sum_map_mul_left]

/-- Witness for C7: the range property evaluated on a concrete weight table
and prediction list. -/
theorem weighted_average_within_range_witness :
    0.2 ≤ (weighted_average_ensemble [("A", 1), ("B", 3)]
        [⟨"A", 0.9, 0.8, 1⟩, ⟨"B", 0.2, 0.4, 1⟩]).fraud_probability ∧
      (weighted_average_ensemble [("A", 1), ("B", 3)]
        [⟨"A", 0.9, 0.8, 1⟩, ⟨"B", 0.2, 0.4, 1⟩]).fraud_probability ≤ 0.9 :=
  weighted_average_within_range [("A", 1), ("B", 3)]
    [⟨"A", 0.9, 0.8, 1⟩, ⟨"B", 0.2, 0.4, 1⟩] 0.2 0.9
    (by
      intro kv hkv
      rcases List.mem_cons.mp hkv with h | h
      · subst h; norm_num
      · simp only [List.mem_singleton] at h; subst h; norm_num)
    (by
      simp [List.minimum_cons, List.minimum_singleton]
      norm_num [min_def])
    (by
      simp [List.maximum_cons, List.maximum_singleton]
      norm_num [max_def])
    (by
      simp [dictGet0]
      norm_num)

/-- C8, counterexample: with weights A 0.5, B 0.3, C 0.2 and predictions
A 0.9, B 0.2, C 0.1 the weighted average is 0.53, but the code maps 0.53 to
risk level LOW (not MEDIUM: MEDIUM needs 0.6) and, with confidence 0.9 above
a threshold 0.7, to decision APPROVE (not APPROVE_WITH_MONITORING, which
needs 0.6). -/
theorem scenario_053_counterexample :
    (weighted_average_ensemble [("A", 0.5), ("B", 0.3), ("C", 0.2)]
        [⟨"A", 0.9, 0.9, 1⟩, ⟨"B", 0.2, 0.9, 1⟩, ⟨"C", 0.1, 0.9, 1⟩]).fraud_probability
      = 0.53 ∧
    calculate_risk_level 0.53 ≠ "MEDIUM" ∧
    (0.7 : ℚ) ≤ 0.9 ∧
    make_decision 0.7 0.53 0.9 ≠ "APPROVE_WITH_MONITORING" := by
  refine ⟨?_, ?_, by norm_num, ?_⟩
  · simp [weighted_average_ensemble, dictGet0]
    norm_num
  · have h : calculate_risk_level 0.53 = "LOW" := by norm_num [calculate_risk_level]
    rw [h]
    decide
  · have h : make_decision 0.7 0.53 0.9 = "APPROVE" := by norm_num [make_decision]
    rw [h]
    decide

/-- C8, amended: with weights A 0.5, B 0.3, C 0.2 and predictions A 0.9,
B 0.2, C 0.1 (any confidences), the weighted average is 0.53; 0.53 maps to
risk level LOW, and when the confidence is at or above the threshold the
decision is APPROVE. -/
theorem scenario_053 (ca cb cc ta tb tc conf th : ℚ) (h : th ≤ conf) :
    (weighted_average_ensemble [("A", 0.5), ("B", 0.3), ("C", 0.2)]
        [⟨"A", 0.9, ca, ta⟩, ⟨"B", 0.2, cb, tb⟩, ⟨"C", 0.1, cc, tc⟩]).fraud_probability
      = 0.53 ∧
    calculate_risk_level 0.53 = "LOW" ∧
    make_decision th 0.53 conf = "APPROVE" := by
  refine ⟨?_, by norm_num [calculate_risk_level], ?_⟩
  · simp [weighted_average_ensemble, dictGet0]
    norm_num
  · have h1 : ¬ conf < th := not_lt.mpr h
    norm_num [make_decision, h1]

/-- Witness for the amended C8: the scenario at concrete confidences with
confidence 0.9 above threshold 0.7. -/
theorem scenario_053_witness :
    (weighted_average_ensemble [("A", 0.5), ("B", 0.3), ("C", 0.2)]
        [⟨"A", 0.9, 0.9, 1⟩, ⟨"B", 0.2, 0.8, 1⟩, ⟨"C", 0.1, 0.7, 1⟩]).fraud_probability
      = 0.53 ∧
    calculate_risk_level 0.53 = "LOW" ∧
    make_decision 0.7 0.53 0.9 = "APPROVE" :=
  scenario_053 0.9 0.8 0.7 1 1 1 0.9 0.7 (by norm_num)

/-- Lookup distributes over cons. -/
theorem dictGet0_cons (kv : String × ℚ) (d : List (String × ℚ)) (key : String) :
    dictGet0 (kv :: d) key = if kv.1 == key then kv.2 else dictGet0 d key := by
  cases hc : (kv.1 == key) with
  | true => simp [dictGet0, List.find?_cons, hc]
  | false => simp [dictGet0, List.find?_cons, hc]

/-- Lookup of an absent key yields the 0 default. -/
theorem dictGet0_eq_zero_of_not_mem_keys (d : List (String × ℚ)) (key : String)
    (h : key ∉ dictKeys d) : dictGet0 d key = 0 := by
  induction d with
  | nil => rfl
  | cons kv rest ih =>
    rw [dictGet0_cons]
    have h1 : kv.1 ≠ key := by
      intro he
      exact h (by simp [dictKeys, he])
    have h2 : key ∉ dictKeys rest := by
      intro hm
      exact h (by simp [dictKeys] at hm ⊢; exact Or.inr hm)
    simp [h1, ih h2]

/-- Value sum distributes over cons. -/
theorem sumValues_cons (x : String × ℚ) (l : List (String × ℚ)) :
    sumValues (x :: l) = x.2 + sumValues l := by
  simp [sumValues]

/-- Summing values after an everywhere-failing replacement map is a no-op. -/
theorem sum_replace_absent (rest : List (String × ℚ)) (k : String) (v : ℚ)
    (h : ∀ kv ∈ rest, (kv.1 == k) = false) :
    sumValues (rest.map fun kv => if kv.1 == k then (kv.1, v) else kv)
      = sumValues rest := by
  induction rest with
  | nil => rfl
  | cons a t ih =>
    have ha := h a (List.mem_cons_self a t)
    have ht := ih fun kv hkv => h kv (List.mem_cons_of_mem a hkv)
    rw [List.map_cons, if_neg (by simp [ha]), sumValues_cons, sumValues_cons, ht]

/-- Summing values after replacing the (unique, by Nodup) entry with key
`k`. -/
theorem sum_replace (d : List (String × ℚ)) (k : String) (v : ℚ)
    (hnd : (dictKeys d).Nodup) (hmem : d.any (fun kv => kv.1 == k) = true) :
    sumValues (d.map fun kv => if kv.1 == k then (kv.1, v) else kv)
      = sumValues d + v - dictGet0 d k := by
  induction d with
  | nil => simp at hmem
  | cons kv0 rest ih =>
    have hnd2 : (kv0.1 :: dictKeys rest).Nodup := hnd
    have hnotin : kv0.1 ∉ dictKeys rest := (List.nodup_cons.mp hnd2).1
    have hndrest : (dictKeys rest).Nodup := (List.nodup_cons.mp hnd2).2
    rw [List.map_cons]
    cases hc : (kv0.1 == k) with
    | true =>
      have hk : kv0.1 = k := by simpa using hc
      have habs : ∀ kv ∈ rest, (kv.1 == k) = false := by
        intro kv hkv
        rw [beq_eq_false_iff_ne]
        intro he
        have hmm : kv.1 ∈ dictKeys rest := List.mem_map_of_mem (fun kv => kv.1) hkv
        rw [he, ← hk] at hmm
        exact hnotin hmm
      rw [if_pos (by simp [hc]), sumValues_cons, sumValues_cons,
        sum_replace_absent rest k v habs, dictGet0_cons, if_pos (by simp [hc])]
      have hv : ((kv0.1, v) : String × ℚ).2 = v := rfl
      rw [hv]
      ring
    | false =>
      have hmem' : rest.any (fun kv => kv.1 == k) = true := by
        simp only [List.any_cons, hc, Bool.false_or] at hmem
        exact hmem
      rw [if_neg (by simp [hc]), sumValues_cons, sumValues_cons,
        ih hndrest hmem', dictGet0_cons, if_neg (by simp [hc])]
      ring

/-- Appending a fresh pair adds its value to the sum. -/
theorem sumValues_append_single (d : List (String × ℚ)) (kv : String × ℚ) :
    sumValues (d ++ [kv]) = sumValues d + kv.2 := by
  simp [sumValues]

/-- Dict assignment changes the value sum by the new value minus the
displaced one (0 for a fresh key). -/
theorem sum_dictInsert (d : List (String × ℚ)) (k : String) (v : ℚ)
    (hnd : (dictKeys d).Nodup) :
    sumValues (dictInsert d k v) = sumValues d + v - dictGet0 d k := by
  unfold dictInsert
  cases hmem : d.any (fun kv => kv.1 == k) with
  | true =>
    rw [if_pos (by simp [hmem])]
    exact sum_replace d k v hnd hmem
  | false =>
    rw [if_neg (by simp [hmem])]
    rw [sumValues_append_single]
    have : k ∉ dictKeys d := by
      intro hm
      simp only [dictKeys, List.mem_map] at hm
      obtain ⟨kv, hkv, hk⟩ := hm
      have := List.any_eq_false.mp hmem kv hkv
      simp [hk] at this
    rw [dictGet0_eq_zero_of_not_mem_keys d k this]
    ring

/-- Dict assignment keeps the key list when the key is present, otherwise
appends the key. -/
theorem dictKeys_dictInsert {V : Type} (d : List (String × V)) (k : String)
    (v : V) :
    dictKeys (dictInsert d k v)
      = if d.any (fun kv => kv.1 == k) then dictKeys d else dictKeys d ++ [k] := by
  unfold dictInsert
  split
  · simp only [dictKeys, List.map_map]
    apply List.map_congr_left
    intro kv _
    cases hc : (kv.1 == k) with
    | true => simp [hc, Function.comp]
    | false => simp [hc, Function.comp]
  · simp [dictKeys]

/-- Dict assignment preserves key Nodup. -/
theorem nodup_dictInsert {V : Type} (d : List (String × V)) (k : String)
    (v : V) (hnd : (dictKeys d).Nodup) :
    (dictKeys (dictInsert d k v)).Nodup := by
  rw [dictKeys_dictInsert]
  cases hmem : d.any (fun kv => kv.1 == k) with
  | true => simpa [hmem] using hnd
  | false =>
    rw [if_neg (by simp [hmem])]
    rw [List.nodup_append]
    refine ⟨hnd, List.nodup_singleton k, ?_⟩
    intro a ha hb
    simp only [List.mem_singleton] at hb
    subst hb
    simp only [dictKeys, List.mem_map] at ha
    obtain ⟨kv, hkv, hk⟩ := ha
    have := List.any_eq_false.mp hmem kv hkv
    simp [hk] at this

/-- Lookup of a different key is unchanged by the in-place replacement
branch of dict assignment. -/
theorem dictGet0_replace_ne (d : List (String × ℚ)) (k : String) (v : ℚ)
    (k2 : String) (h : k ≠ k2) :
    dictGet0 (d.map fun kv => if kv.1 == k then (kv.1, v) else kv) k2
      = dictGet0 d k2 := by
  induction d with
  | nil => rfl
  | cons a t ih =>
    rw [List.map_cons]
    cases hc : (a.1 == k) with
    | true =>
      have hk : a.1 = k := by simpa using hc
      have h2 : (a.1 == k2) = false := by
        rw [beq_eq_false_iff_ne, hk]
        exact h
      rw [if_pos (by simp [hc]), dictGet0_cons, dictGet0_cons]
      have e1 : (((a.1, v) : String × ℚ).1 == k2) = (a.1 == k2) := rfl
      rw [e1, h2, if_neg (by simp), if_neg (by simp)]
      exact ih
    | false =>
      rw [if_neg (by simp [hc]), dictGet0_cons, dictGet0_cons]
      cases hc2 : (a.1 == k2) with
      | true => rw [if_pos (by simp [hc2]), if_pos (by simp [hc2])]
      | false => rw [if_neg (by simp [hc2]), if_neg (by simp [hc2])]; exact ih

/-- Lookup of a different key is unchanged by appending a fresh pair. -/
theorem dictGet0_append_single_ne (d : List (String × ℚ)) (k : String)
    (v : ℚ) (k2 : String) (h : k ≠ k2) :
    dictGet0 (d ++ [(k, v)]) k2 = dictGet0 d k2 := by
  induction d with
  | nil =>
    have h2 : (k == k2) = false := by rw [beq_eq_false_iff_ne]; exact h
    rw [List.nil_append, dictGet0_cons]
    have e1 : (((k, v) : String × ℚ).1 == k2) = (k == k2) := rfl
    rw [e1, h2, if_neg (by simp)]
  | cons a t ih =>
    rw [List.cons_append, dictGet0_cons, dictGet0_cons]
    cases hc2 : (a.1 == k2) with
    | true => rw [if_pos (by simp [hc2]), if_pos (by simp [hc2])]
    | false => rw [if_neg (by simp [hc2]), if_neg (by simp [hc2])]; exact ih

/-- Lookup of a different key is unchanged by a dict assignment. -/
theorem dictGet0_dictInsert_ne (d : List (String × ℚ)) (k : String) (v : ℚ)
    (k2 : String) (h : k ≠ k2) :
    dictGet0 (dictInsert d k v) k2 = dictGet0 d k2 := by
  unfold dictInsert
  split
  · exact dictGet0_replace_ne d k v k2 h
  · exact dictGet0_append_single_ne d k v k2 h

/-- Value sum of a sequence of dict assignments (dict.update): the new
values come in, the displaced old values drop out. Needs Nodup keys on both
sides so each assignment displaces exactly one stored value. -/
theorem sum_foldl_dictInsert (new : List (String × ℚ)) :
    ∀ d : List (String × ℚ), (dictKeys d).Nodup → (dictKeys new).Nodup →
      sumValues (new.foldl (fun acc kv => dictInsert acc kv.1 kv.2) d)
        = sumValues d + sumValues new - (new.map fun kv => dictGet0 d kv.1).sum := by
  induction new with
  | nil =>
    intro d _ _
    simp [sumValues]
  | cons kv rest ih =>
    intro d hd hn
    have hn2 : (kv.1 :: dictKeys rest).Nodup := hn
    have hknotin : kv.1 ∉ dictKeys rest := (List.nodup_cons.mp hn2).1
    have hnrest : (dictKeys rest).Nodup := (List.nodup_cons.mp hn2).2
    rw [List.foldl_cons]
    rw [ih (dictInsert d kv.1 kv.2) (nodup_dictInsert d kv.1 kv.2 hd) hnrest]
    rw [sum_dictInsert d kv.1 kv.2 hd]
    have hmaps : (rest.map fun kv2 => dictGet0 (dictInsert d kv.1 kv.2) kv2.1)
        = rest.map fun kv2 => dictGet0 d kv2.1 := by
      apply List.map_congr_left
      intro kv2 hkv2
      apply dictGet0_dictInsert_ne
      intro he
      exact hknotin (he ▸ List.mem_map_of_mem (fun x => x.1) hkv2)
    rw [hmaps, sumValues_cons, List.map_cons, List.sum_cons]
    ring

/-- Splitting the sum of a key-indexed function over a Nodup-keyed dict at
one key present in it. -/
theorem sum_lookup_split (new : List (String × ℚ)) (a : String) (c : ℚ)
    (g : String → ℚ) (hnd : (dictKeys new).Nodup) (ha : a ∈ dictKeys new)
    (hg : g a = 0) :
    (new.map fun kv => if a == kv.1 then c else g kv.1).sum
      = c + (new.map fun kv => g kv.1).sum := by
  induction new with
  | nil => simp [dictKeys] at ha
  | cons kv0 rest ih =>
    have hn2 : (kv0.1 :: dictKeys rest).Nodup := hnd
    have hknotin : kv0.1 ∉ dictKeys rest := (List.nodup_cons.mp hn2).1
    have hnrest : (dictKeys rest).Nodup := (List.nodup_cons.mp hn2).2
    rw [List.map_cons, List.map_cons, List.sum_cons, List.sum_cons]
    cases hc : (a == kv0.1) with
    | true =>
      have hak : a = kv0.1 := by simpa using hc
      have habs : ∀ kv ∈ rest, (a == kv.1) = false := by
        intro kv hkv
        rw [beq_eq_false_iff_ne]
        intro he
        apply hknotin
        rw [← hak, he]
        exact List.mem_map_of_mem (fun x => x.1) hkv
      have hrest : (rest.map fun kv => if a == kv.1 then c else g kv.1)
          = rest.map fun kv => g kv.1 := by
        apply List.map_congr_left
        intro kv hkv
        rw [if_neg (by simp [habs kv hkv])]
      rw [if_pos (by simp [hc]), hrest, ← hak, hg]
      ring
    | false =>
      have ha2 : a ∈ dictKeys rest := by
        have : dictKeys (kv0 :: rest) = kv0.1 :: dictKeys rest := rfl
        rw [this] at ha
        rcases List.mem_cons.mp ha with h | h
        · exact absurd h (by simpa using hc)
        · exact h
      rw [if_neg (by simp [hc]), ih hnrest ha2]
      ring

/-- Summing the stored values of `old` looked up through the key set of
`new`: when every key of `old` occurs in `new` (both Nodup), this recovers
exactly the value sum of `old`. -/
theorem sum_lookups_eq_sumValues (old : List (String × ℚ)) :
    ∀ new : List (String × ℚ), (dictKeys old).Nodup → (dictKeys new).Nodup →
      (∀ k ∈ dictKeys old, k ∈ dictKeys new) →
      (new.map fun kv => dictGet0 old kv.1).sum = sumValues old := by
  induction old with
  | nil =>
    intro new _ _ _
    have : (new.map fun kv => dictGet0 [] kv.1) = new.map fun _ => (0 : ℚ) := by
      apply List.map_congr_left
      intro kv _
      rfl
    simp [this, sumValues]
  | cons kv0 rest ih =>
    intro new hold hnew hsub
    have ho2 : (kv0.1 :: dictKeys rest).Nodup := hold
    have hknotin : kv0.1 ∉ dictKeys rest := (List.nodup_cons.mp ho2).1
    have horest : (dictKeys rest).Nodup := (List.nodup_cons.mp ho2).2
    have hmaps : (new.map fun kv => dictGet0 (kv0 :: rest) kv.1)
        = new.map fun kv => if kv0.1 == kv.1 then kv0.2 else dictGet0 rest kv.1 := by
      apply List.map_congr_left
      intro kv _
      exact dictGet0_cons kv0 rest kv.1
    rw [hmaps]
    have hg : dictGet0 rest kv0.1 = 0 :=
      dictGet0_eq_zero_of_not_mem_keys rest kv0.1 hknotin
    have ha : kv0.1 ∈ dictKeys new :=
      hsub kv0.1 (List.mem_cons_self kv0.1 (dictKeys rest))
    rw [sum_lookup_split new kv0.1 kv0.2 (fun k => dictGet0 rest k) hnew ha hg]
    have hsub2 : ∀ k ∈ dictKeys rest, k ∈ dictKeys new := by
      intro k hk
      exact hsub k (List.mem_cons_of_mem kv0.1 hk)
    rw [ih new horest hnew hsub2, sumValues_cons]

/-- A filter and its complement partition the value sum. -/
theorem sumValues_filter_partition (l : List (String × ℚ))
    (p : String × ℚ → Bool) :
    sumValues (l.filter p) + sumValues (l.filter fun kv => !(p kv))
      = sumValues l := by
  induction l with
  | nil => simp [sumValues]
  | cons a t ih =>
    cases hp : p a with
    | true =>
      rw [List.filter_cons, List.filter_cons, hp]
      simp only [if_true, Bool.not_true, Bool.false_eq_true, if_false,
        sumValues_cons]
      rw [← ih]
      ring
    | false =>
      rw [List.filter_cons, List.filter_cons, hp]
      simp only [Bool.false_eq_true, if_false, Bool.not_false, if_true,
        sumValues_cons]
      rw [← ih]
      ring

/-- Summing the stored values of `old` looked up through the keys of `new`
(both Nodup) recovers exactly the values of `old` stored at keys that occur
in `new`. -/
theorem sum_lookups_eq_sum_filter (old : List (String × ℚ)) :
    ∀ new : List (String × ℚ), (dictKeys old).Nodup → (dictKeys new).Nodup →
      (new.map fun kv => dictGet0 old kv.1).sum
        = sumValues (old.filter fun kv => new.any fun kv2 => kv2.1 == kv.1) := by
  induction old with
  | nil =>
    intro new _ _
    have h : (new.map fun kv => dictGet0 [] kv.1) = new.map fun _ => (0 : ℚ) := by
      apply List.map_congr_left
      intro kv _
      rfl
    simp [h, sumValues]
  | cons kv0 rest ih =>
    intro new hold hnew
    have ho2 : (kv0.1 :: dictKeys rest).Nodup := hold
    have hknotin : kv0.1 ∉ dictKeys rest := (List.nodup_cons.mp ho2).1
    have horest : (dictKeys rest).Nodup := (List.nodup_cons.mp ho2).2
    have hmaps : (new.map fun kv => dictGet0 (kv0 :: rest) kv.1)
        = new.map fun kv => if kv0.1 == kv.1 then kv0.2 else dictGet0 rest kv.1 := by
      apply List.map_congr_left
      intro kv _
      exact dictGet0_cons kv0 rest kv.1
    rw [hmaps, List.filter_cons]
    by_cases hmem : kv0.1 ∈ dictKeys new
    · have hany : (new.any fun kv2 => kv2.1 == kv0.1) = true := by
        apply List.any_eq_true.mpr
        simp only [dictKeys, List.mem_map] at hmem
        obtain ⟨kv2, hkv2, hk⟩ := hmem
        exact ⟨kv2, hkv2, by simp [hk]⟩
      have hg : dictGet0 rest kv0.1 = 0 :=
        dictGet0_eq_zero_of_not_mem_keys rest kv0.1 hknotin
      rw [sum_lookup_split new kv0.1 kv0.2 (fun k => dictGet0 rest k) hnew hmem hg,
        ih new horest hnew, hany]
      simp only [if_true, sumValues_cons]
    · have hconds : ∀ kv ∈ new, (kv0.1 == kv.1) = false := by
        intro kv hkv
        rw [beq_eq_false_iff_ne]
        intro he
        apply hmem
        rw [he]
        exact List.mem_map_of_mem (fun z => z.1) hkv
      have hmaps2 : (new.map fun kv => if kv0.1 == kv.1 then kv0.2 else dictGet0 rest kv.1)
          = new.map fun kv => dictGet0 rest kv.1 := by
        apply List.map_congr_left
        intro kv hkv
        rw [if_neg (by simp [hconds kv hkv])]
      have hany : (new.any fun kv2 => kv2.1 == kv0.1) = false := by
        apply List.any_eq_false.mpr
        intro kv2 hkv2
        have h1 := hconds kv2 hkv2
        rw [beq_eq_false_iff_ne] at h1
        simp only [beq_iff_eq]
        exact fun h2 => h1 h2.symm
      rw [hmaps2, ih new horest hnew, hany]
      simp only [Bool.false_eq_true, if_false]

/-- Normalizing a positive-total weight dict makes its values sum to 1. -/
theorem sumValues_normalize (d : List (String × ℚ)) (h : 0 < sumValues d) :
    sumValues (d.map fun kv => (kv.1, kv.2 / sumValues d)) = 1 := by
  have hne : sumValues d ≠ 0 := ne_of_gt h
  have h1 : sumValues (d.map fun kv => (kv.1, kv.2 / sumValues d))
      = (d.map fun kv => kv.2 * (sumValues d)⁻¹).sum := by
    unfold sumValues
    rw [List.map_map]
    apply congrArg List.sum
    apply List.map_congr_left
    intro kv _
    simp [Function.comp, div_eq_mul_inv, sumValues]
  have h2 : (d.map fun kv => kv.2 * (sumValues d)⁻¹).sum
      = (d.map fun kv => kv.2).sum * (sumValues d)⁻¹ :=
    List.sum_map_mul_right d (fun kv => kv.2) (sumValues d)⁻¹
  have h3 : (d.map fun kv => kv.2).sum = sumValues d := rfl
  rw [h1, h2, h3]
  exact mul_inv_cancel₀ hne

/-- C3, counterexample: updating weights stored as A 1 with the
positive-total mapping B 1 merges the normalized B weight into the table
(dict.update), leaving A untouched, so the stored weights sum to 2, not 1. -/
theorem model_weights_sum_counterexample :
    0 < sumValues [("B", (1 : ℚ))] ∧
    sumValues (update_model_weights (get_model_weights [("A", 1)]) [("B", 1)]) ≠ 1 := by
  constructor
  · norm_num [sumValues]
  · have h : update_model_weights (get_model_weights [("A", 1)]) [("B", 1)]
        = [("A", 1), ("B", 1)] := by
      norm_num [update_model_weights, get_model_weights, sumValues, dictInsert]
      decide
    rw [h]
    norm_num [sumValues, sumValues_cons]

/-- C3, amended: the initial read of configured weights with positive total
stores weights summing to 1. The runtime update with positive total
normalizes the new mapping to sum to 1 but dict-merges it into the stored
table, leaving keys absent from the mapping untouched: after such an update
the stored sum equals 1 plus the previously stored weight at keys absent
from the new mapping. In particular the sum is 1 whenever every stored key
occurs in the mapping, and an update omitting positive-weight stored keys
leaves a sum above 1 by exactly that omitted weight (2 in the
counterexample). -/
theorem model_weights_sum_one (cfgW old new : List (String × ℚ)) :
    (0 < sumValues cfgW → sumValues (get_model_weights cfgW) = 1) ∧
    ((dictKeys old).Nodup → (dictKeys new).Nodup → 0 < sumValues new →
      sumValues (update_model_weights old new)
        = 1 + sumValues (old.filter fun kv => !(new.any fun kv2 => kv2.1 == kv.1))) ∧
    ((dictKeys old).Nodup → (dictKeys new).Nodup →
      (∀ k ∈ dictKeys old, k ∈ dictKeys new) → 0 < sumValues new →
      sumValues (update_model_weights old new) = 1) := by
  have hupdate : ∀ (hold : (dictKeys old).Nodup) (hnew : (dictKeys new).Nodup),
      0 < sumValues new →
      sumValues (update_model_weights old new)
        = sumValues old + 1 - (new.map fun kv => dictGet0 old kv.1).sum := by
    intro hold hnew hpos
    simp only [update_model_weights, if_pos hpos]
    have hkeys : dictKeys (new.map fun kv => (kv.1, kv.2 / sumValues new))
        = dictKeys new := by
      simp only [dictKeys, List.map_map]
      apply List.map_congr_left
      intro kv _
      rfl
    have hnnew : (dictKeys (new.map fun kv => (kv.1, kv.2 / sumValues new))).Nodup := by
      rw [hkeys]
      exact hnew
    rw [sum_foldl_dictInsert (new.map fun kv => (kv.1, kv.2 / sumValues new))
      old hold hnnew]
    have h1 : sumValues (new.map fun kv => (kv.1, kv.2 / sumValues new)) = 1 :=
      sumValues_normalize new hpos
    have h2 : ((new.map fun kv => (kv.1, kv.2 / sumValues new)).map
          fun kv => dictGet0 old kv.1)
        = new.map fun kv => dictGet0 old kv.1 := by
      rw [List.map_map]
      apply List.map_congr_left
      intro kv _
      rfl
    rw [h1, h2]
  refine ⟨fun h => ?_, fun hold hnew hpos => ?_, fun hold hnew hsub hpos => ?_⟩
  · simp only [get_model_weights, if_pos h]
    exact sumValues_normalize cfgW h
  · rw [hupdate hold hnew hpos, sum_lookups_eq_sum_filter old new hold hnew]
    have hpart := sumValues_filter_partition old
      (fun kv => new.any fun kv2 => kv2.1 == kv.1)
    simp only [] at hpart ⊢
    linarith
  · rw [hupdate hold hnew hpos, sum_lookups_eq_sumValues old new hold hnew hsub]
    ring

/-- Witness for the amended C3: a concrete initial read sums to 1; a
concrete covering update sums to 1; and a concrete omitting update sums to
1 plus the leftover stored weight. -/
theorem model_weights_sum_one_witness :
    sumValues (get_model_weights [("A", 2), ("B", 6)]) = 1 ∧
    sumValues (update_model_weights [("A", 1)] [("A", 3), ("B", 1)]) = 1 ∧
    sumValues (update_model_weights [("A", 1)] [("B", 1)])
      = 1 + sumValues ([(("A" : String), (1 : ℚ))].filter
          fun kv => !([(("B" : String), (1 : ℚ))].any fun kv2 => kv2.1 == kv.1)) :=
  ⟨(model_weights_sum_one [("A", 2), ("B", 6)] [] []).1 (by norm_num [sumValues]),
   (model_weights_sum_one [] [("A", 1)] [("A", 3), ("B", 1)]).2.2
     (by decide) (by decide) (by decide) (by norm_num [sumValues]),
   (model_weights_sum_one [] [("A", 1)] [("B", 1)]).2.1
     (by decide) (by decide) (by norm_num [sumValues])⟩

/-- Length of a dict assignment: unchanged for a present key, one more for
a fresh key. -/
theorem length_dictInsert {V : Type} (d : List (String × V)) (k : String)
    (v : V) :
    (dictInsert d k v).length
      = if d.any (fun kv => kv.1 == k) then d.length else d.length + 1 := by
  unfold dictInsert
  split
  · rw [List.length_map]
  · rw [List.length_append, List.length_cons, List.length_nil]

/-- The running minimum of the oldest-entry fold stays in the scanned
prefix. -/
theorem foldl_oldest_mem {V : Type} :
    ∀ (es : List (String × V × ℚ)) (b : String × V × ℚ),
      es.foldl (fun best x => if x.2.2 < best.2.2 then x else best) b ∈ b :: es := by
  intro es
  induction es with
  | nil =>
    intro b
    simp
  | cons x es ih =>
    intro b
    rw [List.foldl_cons]
    have h := ih (if x.2.2 < b.2.2 then x else b)
    rcases List.mem_cons.mp h with h1 | h1
    · rw [h1]
      split
      · exact List.mem_cons_of_mem b (List.mem_cons_self x es)
      · exact List.mem_cons_self b (x :: es)
    · exact List.mem_cons_of_mem b (List.mem_cons_of_mem x h1)

/-- Whatever `oldestEntry` returns is an entry of the cache. -/
theorem oldestEntry_mem {V : Type} (c : List (String × V × ℚ))
    (e : String × V × ℚ) (h : oldestEntry c = some e) : e ∈ c := by
  cases c with
  | nil => simp [oldestEntry] at h
  | cons b es =>
    simp only [oldestEntry, Option.some.injEq] at h
    rw [← h]
    exact foldl_oldest_mem es b

/-- The oldest-entry fold returns the strictly-minimal entry. -/
theorem foldl_oldest_eq {V : Type} (e : String × V × ℚ) :
    ∀ (es : List (String × V × ℚ)) (b : String × V × ℚ),
      (e = b ∨ e ∈ es) →
      (∀ x, (x = b ∨ x ∈ es) → x ≠ e → e.2.2 < x.2.2) →
      es.foldl (fun best x => if x.2.2 < best.2.2 then x else best) b = e := by
  intro es
  induction es with
  | nil =>
    intro b hin _
    rcases hin with h | h
    · simpa using h.symm
    · simp at h
  | cons x es ih =>
    intro b hin hmin
    rw [List.foldl_cons]
    by_cases hbe : b = e
    · have hb2 : (if x.2.2 < b.2.2 then x else b) = e := by
        by_cases hxe : x = e
        · subst hxe
          subst hbe
          split
          · rfl
          · rfl
        · have hlt := hmin x (Or.inr (List.mem_cons_self x es)) hxe
          rw [if_neg (by rw [hbe]; exact not_lt.mpr hlt.le)]
          exact hbe
      rw [hb2]
      apply ih
      · exact Or.inl rfl
      · intro y hy hye
        rcases hy with h | h
        · exact absurd h hye
        · exact hmin y (Or.inr (List.mem_cons_of_mem x h)) hye
    · rcases hin with h | h
      · exact absurd h.symm hbe
      rcases List.mem_cons.mp h with h1 | h1
      · have hb2 : (if x.2.2 < b.2.2 then x else b) = e := by
          have hlt := hmin b (Or.inl rfl) hbe
          rw [h1] at hlt
          rw [if_pos hlt]
          exact h1.symm
        rw [hb2]
        apply ih
        · exact Or.inl rfl
        · intro y hy hye
          rcases hy with h2 | h2
          · exact absurd h2 hye
          · exact hmin y (Or.inr (List.mem_cons_of_mem x h2)) hye
      · apply ih
        · exact Or.inr h1
        · intro y hy hye
          rcases hy with h2 | h2
          · by_cases hlt : x.2.2 < b.2.2
            · rw [if_pos hlt] at h2
              rw [h2] at hye ⊢
              exact hmin x (Or.inr (List.mem_cons_self x es)) hye
            · rw [if_neg hlt] at h2
              rw [h2] at hye ⊢
              exact hmin b (Or.inl rfl) hye
          · exact hmin y (Or.inr (List.mem_cons_of_mem x h2)) hye

/-- When one entry has a strictly smaller timestamp than all others,
`oldestEntry` finds exactly it (first-minimum scan). -/
theorem oldestEntry_strict_min {V : Type} (c : List (String × V × ℚ))
    (e : String × V × ℚ) (he : e ∈ c)
    (hmin : ∀ x ∈ c, x ≠ e → e.2.2 < x.2.2) :
    oldestEntry c = some e := by
  cases c with
  | nil => simp at he
  | cons b es =>
    simp only [oldestEntry, Option.some.injEq]
    apply foldl_oldest_eq
    · rcases List.mem_cons.mp he with h | h
      · exact Or.inl h
      · exact Or.inr h
    · intro x hx hxe
      apply hmin x _ hxe
      rcases hx with h | h
      · rw [h]
        exact List.mem_cons_self b es
      · exact List.mem_cons_of_mem b h

/-- Removing the unique (by key Nodup) entry with a given key shortens the
list by exactly one. -/
theorem length_filter_erase_key {V : Type} (c : List (String × V × ℚ))
    (e : String × V × ℚ) (hnd : (dictKeys c).Nodup) (he : e ∈ c) :
    (c.filter fun kv => !(kv.1 == e.1)).length + 1 = c.length := by
  induction c with
  | nil => simp at he
  | cons a t ih =>
    have hn2 : (a.1 :: dictKeys t).Nodup := hnd
    have hknotin : a.1 ∉ dictKeys t := (List.nodup_cons.mp hn2).1
    have hnt : (dictKeys t).Nodup := (List.nodup_cons.mp hn2).2
    rcases List.mem_cons.mp he with h | h
    · have hae : a.1 = e.1 := (congrArg (fun z => z.1) h).symm
      have hpa : (!(a.1 == e.1)) = false := by simp [hae]
      have hfilt : t.filter (fun kv => !(kv.1 == e.1)) = t := by
        apply List.filter_eq_self.mpr
        intro kv hkv
        have hne : kv.1 ≠ e.1 := by
          intro hk
          apply hknotin
          rw [hae, ← hk]
          exact List.mem_map_of_mem (fun z => z.1) hkv
        simp [hne]
      rw [List.filter_cons, hpa]
      simp [hfilt]
    · have hae : a.1 ≠ e.1 := by
        intro hk
        apply hknotin
        rw [hk]
        exact List.mem_map_of_mem (fun z => z.1) h
      have hpa : (!(a.1 == e.1)) = true := by simp [hae]
      have hih := ih hnt h
      rw [List.filter_cons, hpa]
      simp only [if_true, List.length_cons]
      omega

/-- Distinct entries of a Nodup-keyed dict have distinct keys. -/
theorem ne_key_of_ne {V : Type} (c : List (String × V × ℚ))
    (hnd : (dictKeys c).Nodup) (x e : String × V × ℚ) (hx : x ∈ c)
    (he : e ∈ c) (hne : x ≠ e) : x.1 ≠ e.1 := by
  intro hk
  exact hne (List.inj_on_of_nodup_map hnd hx he hk)

/-- C4, amended: the source evicts only when `len(cache) > max` (not `>=`),
so with capacity constant `m` the cache stabilizes at `m + 1` entries:
inserting into a cache of at most `m + 1` entries leaves at most `m + 1`
entries, and inserting a fresh key into a cache of exactly `m + 1`
Nodup-keyed entries whose oldest entry is strictly oldest evicts exactly
that entry and preserves every other entry. -/
theorem cache_prediction_capped_eviction {V : Type} (m : Nat)
    (c : List (String × V × ℚ)) (k : String) (v : V) (t : ℚ)
    (e : String × V × ℚ) :
    (c.length ≤ m + 1 → (cache_prediction_capped m c k v t).length ≤ m + 1) ∧
    (c.length = m + 1 → (dictKeys c).Nodup →
      c.any (fun kv => kv.1 == k) = false →
      e ∈ c → (∀ x ∈ c, x ≠ e → e.2.2 < x.2.2) →
      cache_prediction_capped m c k v t
          = (c.filter fun kv => !(kv.1 == e.1)) ++ [(k, (v, t))] ∧
        (cache_prediction_capped m c k v t).length = m + 1 ∧
        ∀ x ∈ c, x ≠ e → x ∈ cache_prediction_capped m c k v t) := by
  constructor
  · intro hlen
    unfold cache_prediction_capped
    by_cases hgt : m < c.length
    · cases c with
      | nil => simp at hgt
      | cons b es =>
        simp only [if_pos hgt, oldestEntry]
        have he0 : (es.foldl (fun best x => if x.2.2 < best.2.2 then x else best) b)
            ∈ b :: es := foldl_oldest_mem es b
        have hflt : ((b :: es).filter fun kv =>
            !(kv.1 == (es.foldl (fun best x => if x.2.2 < best.2.2 then x else best) b).1)).length
            < (b :: es).length := by
          apply List.length_filter_lt_length_iff_exists.mpr
          exact ⟨_, he0, by simp⟩
        rw [length_dictInsert]
        split
        · omega
        · omega
    · simp only [if_neg hgt]
      rw [length_dictInsert]
      split
      · omega
      · omega
  · intro hlen hnd hfresh he hmin
    have hgt : m < c.length := by omega
    have heq : cache_prediction_capped m c k v t
        = (c.filter fun kv => !(kv.1 == e.1)) ++ [(k, (v, t))] := by
      unfold cache_prediction_capped
      simp only [if_pos hgt, oldestEntry_strict_min c e he hmin]
      have hfresh2 : ((c.filter fun kv => !(kv.1 == e.1)).any
          fun kv => kv.1 == k) = false := by
        apply List.any_eq_false.mpr
        intro kv hkv
        exact List.any_eq_false.mp hfresh kv (List.mem_of_mem_filter hkv)
      unfold dictInsert
      rw [if_neg (by simp [hfresh2])]
    refine ⟨heq, ?_, ?_⟩
    · rw [heq, List.length_append]
      have := length_filter_erase_key c e hnd he
      simp only [List.length_cons, List.length_nil]
      omega
    · intro x hx hxe
      rw [heq]
      apply List.mem_append_left
      apply List.mem_filter.mpr
      refine ⟨hx, ?_⟩
      have hne := ne_key_of_ne c hnd x e hx he hxe
      simp [hne]

/-- Witness for the amended C4: a two-entry cache with capacity constant 1
and a strictly oldest second entry: inserting a fresh key evicts exactly
that entry. -/
theorem cache_prediction_capped_eviction_witness :
    cache_prediction_capped 1
        [("a", (), (5 : ℚ)), ("b", (), (3 : ℚ))] "c" () 7
        = [("a", (), (5 : ℚ)), ("c", (), (7 : ℚ))] ∧
      (cache_prediction_capped 1
        [("a", (), (5 : ℚ)), ("b", (), (3 : ℚ))] "c" () 7).length = 2 := by
  have h := (cache_prediction_capped_eviction 1
    [("a", (), (5 : ℚ)), ("b", (), (3 : ℚ))] "c" () 7 ("b", (), (3 : ℚ))).2
    rfl
    (by decide)
    (by decide)
    (List.mem_cons_of_mem _ (List.mem_cons_self _ _))
    (by
      intro x hx hxe
      rcases List.mem_cons.mp hx with h1 | h1
      · rw [h1]
        norm_num
      · rcases List.mem_cons.mp h1 with h2 | h2
        · exact absurd h2 hxe
        · simp at h2)
  refine ⟨?_, h.2.1⟩
  rw [h.1]
  decide

set_option maxRecDepth 100000 in
/-- C4, counterexample: the source checks `len > 1000` before inserting, so
a cache already holding exactly 1000 entries accepts a fresh key with no
eviction and ends up holding 1001 entries — the cap of the claim is
exceeded. -/
theorem cache_prediction_counterexample :
    ((List.range 1000).map fun i : Nat => (toString i, ((), (i : ℚ)))).length = 1000 ∧
    (((List.range 1000).map fun i : Nat => (toString i, ((), (i : ℚ)))).any
        fun kv => kv.1 == "fresh") = false ∧
    (cache_prediction ((List.range 1000).map fun i : Nat => (toString i, ((), (i : ℚ))))
        "fresh" () 1000).length = 1001 := by
  refine ⟨?_, by decide, by decide⟩
  rw [List.length_map, List.length_range]

/-- C9, counterexample: with explanation enabled and a request whose
`amount` feature is a string, `_generate_explanation` raises (the unguarded
`amount > 10000` comparison is a TypeError) and `predict` propagates the
failure instead of returning its result with an empty explanation. -/
theorem predict_explanation_counterexample :
    predict
        ⟨EnsembleStrategy.weighted_average, 0.5, 0.5, true, [("A", 1)]⟩
        [("amount", PyVal.str "oops")]
        [⟨"A", 0.9, 0.8, 1⟩]
      = Except.error PredictError.typeError := by
  rfl

/-- C9, amended: `predict` calls `_generate_explanation` with no error
guard, so an explanation error propagates and no result is returned; when
explanation generation succeeds (or is disabled) the returned
fraud_probability, risk_level and decision are computed from the combiner
output alone, the explanation being merely attached to the result. -/
theorem predict_explanation_behavior (cfg : EnsembleConfig)
    (features : Features) (preds : List PredictionResult)
    (hne : preds.isEmpty = false) :
    (∀ err, cfg.enable_explanation = true →
        generate_explanation cfg.model_weights preds features = Except.error err →
        predict cfg features preds = Except.error err) ∧
    (∀ ex, cfg.enable_explanation = true →
        generate_explanation cfg.model_weights preds features = Except.ok ex →
        predict cfg features preds = Except.ok (predict_success_result cfg preds ex)) ∧
    (cfg.enable_explanation = false →
        predict cfg features preds
          = Except.ok (predict_success_result cfg preds emptyExplanation)) := by
  refine ⟨fun err hee hgen => ?_, fun ex hee hgen => ?_, fun hee => ?_⟩
  · simp [predict, hne, hee, hgen]
  · simp [predict, hne, hee, hgen, predict_success_result, pure, Except.pure,
      bind, Except.bind]
  · simp [predict, hne, hee, predict_success_result, pure, Except.pure,
      bind, Except.bind]

/-- Witness for the amended C9: with explanation disabled, `predict` returns
the combiner-derived result with the empty explanation attached. -/
theorem predict_explanation_behavior_witness :
    predict
        ⟨EnsembleStrategy.weighted_average, 0.5, 0.5, false, [("A", 1)]⟩
        [("amount", PyVal.str "oops")]
        [⟨"A", 0.9, 0.8, 1⟩]
      = Except.ok (predict_success_result
          ⟨EnsembleStrategy.weighted_average, 0.5, 0.5, false, [("A", 1)]⟩
          [⟨"A", 0.9, 0.8, 1⟩] emptyExplanation) :=
  (predict_explanation_behavior
      ⟨EnsembleStrategy.weighted_average, 0.5, 0.5, false, [("A", 1)]⟩
      [("amount", PyVal.str "oops")]
      [⟨"A", 0.9, 0.8, 1⟩] rfl).2.2 rfl

end FraudDetection
